import Mathlib

/-!
Verification of the PolicyStack three-way merge core
(`policystack/core/merger.py` and `policystack/commands/upgrade.py`).

The structured documents handled by the merger are YAML trees: nulls,
booleans, integers, strings, sequences and mappings with string keys.
They are modelled by the inductive type `Value`.  Python's `==` on such
trees (mapping comparison is key-set based and ignores insertion order;
`True == 1` holds) is modelled by `pyEq`.  The merger classes are
modelled function by function below.
-/

set_option maxHeartbeats 1000000

namespace PolicyStack

/-- A YAML document tree as loaded by the source: null, bool, int, string,
sequence, or mapping.  Mappings keep insertion order, hence a list of
key/value pairs; the source's YAML mappings have string keys.  Floats are
not modelled (no claim involves them). -/
inductive Value where
  | null : Value
  | bool (b : Bool) : Value
  | int (n : Int) : Value
  | str (s : String) : Value
  | seq (items : List Value) : Value
  | map (entries : List (String × Value)) : Value

/-- First-match lookup in an association list, Python `d[k]` / `d.get(k)`
on a (duplicate-free) dict. -/
def lookupStr (k : String) : List (String × Value) → Option Value
  | [] => none
  | (k', v) :: rest => if k = k' then some v else lookupStr k rest

/-- The keys of a mapping, in insertion order (`list(d.keys())`). -/
def keysOf (xs : List (String × Value)) : List String :=
  xs.map Prod.fst

mutual

/-- Python `==` on document trees: mappings compare as (key, value) sets
regardless of order, sequences compare pointwise, and `True == 1`,
`False == 0` as in Python. -/
def pyEq : Value → Value → Bool
  | .null, .null => true
  | .bool a, .bool b => a == b
  | .bool a, .int n => (if a then (1 : Int) else 0) == n
  | .int n, .bool a => n == (if a then (1 : Int) else 0)
  | .int m, .int n => m == n
  | .str s, .str t => s == t
  | .seq xs, .seq ys => pyEqList xs ys
  | .map xs, .map ys => pyMapLe xs ys && pyMapLe ys xs
  | _, _ => false
termination_by a b => sizeOf a + sizeOf b
decreasing_by all_goals (simp_wf <;> omega)

/-- Pointwise Python `==` on sequences. -/
def pyEqList : List Value → List Value → Bool
  | [], [] => true
  | x :: xs, y :: ys => pyEq x y && pyEqList xs ys
  | _, _ => false
termination_by xs ys => sizeOf xs + sizeOf ys
decreasing_by all_goals (simp_wf <;> omega)

/-- One inclusion of Python dict equality: every entry of the first
mapping is matched by the second. -/
def pyMapLe : List (String × Value) → List (String × Value) → Bool
  | [], _ => true
  | (k, v) :: xs, ys => pyFind k v ys && pyMapLe xs ys
termination_by xs ys => sizeOf xs + sizeOf ys
decreasing_by all_goals (simp_wf <;> omega)

/-- Whether the first entry of `ys` with key `k` has a value
Python-equal to `v`. -/
def pyFind (k : String) (v : Value) : List (String × Value) → Bool
  | [] => false
  | (k', w) :: ys => if k = k' then pyEq v w else pyFind k v ys
termination_by ys => sizeOf v + sizeOf ys
decreasing_by all_goals (simp_wf <;> omega)

end

/-- Python truthiness of a document value (`bool(x)`). -/
def isTruthy : Value → Bool
  | .null => false
  | .bool b => b
  | .int n => n != 0
  | .str s => s != ""
  | .seq xs => !xs.isEmpty
  | .map xs => !xs.isEmpty

/-- Whether the value is a mapping (`isinstance(x, (dict, CommentedMap))`). -/
def isMapV : Value → Bool
  | .map _ => true
  | _ => false

/-- Whether the value is a sequence (`isinstance(x, (list, CommentedSeq))`). -/
def isSeqV : Value → Bool
  | .seq _ => true
  | _ => false

/-- `merger.py` `MergeConflict`: a conflict record.  `resolution` is
`None` or one of the strings `keep_local` / `take_remote`;
`auto_resolvable` is computed at construction by
`_check_auto_resolvable`. -/
structure MergeConflict where
  path : String
  base_value : Value
  local_value : Value
  remote_value : Value
  resolution : Option String
  auto_resolvable : Bool

/-- `MergeConflict.__init__` together with `_check_auto_resolvable`
(merger.py lines 15-33): if `base == remote` the resolution is set to
`keep_local` and the conflict is auto-resolvable; otherwise if
`base == local` it is set to `take_remote`; otherwise the resolution
stays `None` and the conflict is not auto-resolvable. -/
def mkConflict (p : String) (b l r : Value) : MergeConflict :=
  if pyEq b r then ⟨p, b, l, r, some "keep_local", true⟩
  else if pyEq b l then ⟨p, b, l, r, some "take_remote", true⟩
  else ⟨p, b, l, r, none, false⟩

/-- `item.get('name')` on a mapping item: the stored value, or Python
`None` (modelled `.null`) when the key is missing.  Non-mapping values
are never asked for their name by the source (guarded by
`isinstance`). -/
def pyGetName : Value → Value
  | .map m => (lookupStr "name" m).getD .null
  | _ => .null

/-- Python `str(x)` for the scalar values that can be used as names of
named-list items.  Sequences and mappings are unhashable in Python and
can never be dict keys (the source would raise before formatting
them), so their rendering is irrelevant; we return "". -/
def pyStr : Value → String
  | .null => "None"
  | .bool true => "True"
  | .bool false => "False"
  | .int n => toString n
  | .str s => s
  | .seq _ => ""
  | .map _ => ""

/-- `_is_named_list` (merger.py lines 170-176): non-empty, every item a
mapping, and every item has a `name` key. -/
def isNamedList (xs : List Value) : Bool :=
  !xs.isEmpty && xs.all isMapV &&
    xs.all (fun it => match it with
      | .map m => (keysOf m).contains "name"
      | _ => false)

/-- First entry of a Python dict (as ordered assoc list with `==`-keys)
whose key is Python-equal to `k`. -/
def lookupPyKey (k : Value) : List (Value × Value) → Option Value
  | [] => none
  | (k', v) :: rest => if pyEq k k' then some v else lookupPyKey k rest

/-- Insert into a Python dict modelled as an ordered assoc list: a
repeated key keeps its original position (and original key object) but
takes the new value; a new key is appended. -/
def updAssoc (k v : Value) : List (Value × Value) → List (Value × Value)
  | [] => [(k, v)]
  | (k', v') :: rest =>
    if pyEq k k' then (k', v) :: rest else (k', v') :: updAssoc k v rest

/-- The dict comprehension `{item.get('name'): item for item in lst if
isinstance(item, (dict, CommentedMap))}` used by `_merge_named_lists`:
mapping items indexed by their name, insertion-ordered with
last-occurrence values. -/
def byName (items : List Value) : List (Value × Value) :=
  items.foldl
    (fun acc it => if isMapV it then updAssoc (pyGetName it) it acc else acc) []

/-- `f"{path}.{key}" if path else str(key)`. -/
def keyPath (p k : String) : String :=
  if p = "" then k else p ++ "." ++ k

/-- The `all_keys` construction of `_merge_dicts` (merger.py lines
128-132): start from the local keys and append each remote key not
already present. -/
def extendKeys (acc : List String) (ks : List String) : List String :=
  ks.foldl (fun a k => if a.contains k then a else a ++ [k]) acc

/-- `base.get(key) if base else None` inside `_merge_dicts` (line 138).
The source would raise `AttributeError` if `base` were a truthy
non-mapping; that situation yields `.null` here. -/
def baseGet (b : Value) (k : String) : Value :=
  if isTruthy b then
    match b with
    | .map bm => (lookupStr k bm).getD .null
    | _ => .null
  else .null

/-- `key in base` inside `_merge_dicts` (line 143).  A falsy base has no
keys; a truthy non-mapping base would raise `TypeError` in the source
and yields `false` here. -/
def baseHasKey (b : Value) (k : String) : Bool :=
  match b with
  | .map bm => (keysOf bm).contains k
  | _ => false

/-- `(base or [])` iterated by `_merge_named_lists` (merger.py line 183):
the items of a sequence, `[]` for a falsy base.  A truthy non-sequence
would raise `TypeError` in the source. -/
def seqItems : Value → List Value
  | .seq xs => xs
  | _ => []

/-- The second loop of `_merge_named_lists` (merger.py lines 211-214):
remote-indexed items whose name was not seen among the local items, in
remote index order. -/
def remoteOnlyItems (rBy : List (Value × Value)) (seen : List Value) :
    List Value :=
  (rBy.filter (fun nv => !(seen.any (fun s => pyEq nv.1 s)))).map Prod.snd

/-- `sizeOf` of a value found by `lookupStr` is below the list's. -/
theorem lookupStr_sizeOf {k : String} {xs : List (String × Value)} {v : Value}
    (h : lookupStr k xs = some v) : sizeOf v < sizeOf xs := by
  induction xs with
  | nil => simp [lookupStr] at h
  | cons kv rest ih =>
    obtain ⟨k', w⟩ := kv
    by_cases hk : k = k'
    · simp [lookupStr, hk] at h
      subst h
      simp
      omega
    · simp [lookupStr, hk] at h
      have := ih h
      simp
      omega

mutual

/-- `PreservingYAMLMerger._deep_merge` (merger.py lines 89-115), with
the conflicts produced returned alongside the merged value instead of
appended to `self.conflicts`.  Comment preservation (`_preserve_comments`)
carries no structural content and is not modelled. -/
def deepMerge (b l r : Value) (p : String) : Value × List MergeConflict :=
  if pyEq l r then (l, [])
  else
    match l, r with
    | .map lm, .map rm =>
      let res := mergeDicts (if isTruthy b then b else .map []) lm rm p
      (.map res.1, res.2)
    | .seq ll, .seq rl =>
      mergeLists (if isTruthy b then b else .seq []) ll rl p
    | l', r' =>
      if pyEq b l' then (r', [])
      else if pyEq b r' then (l', [])
      else (l', [mkConflict p b l' r'])
termination_by (sizeOf l, 3)

/-- `PreservingYAMLMerger._merge_dicts` (merger.py lines 117-151).  The
placeholder pre-fill over a `CommentedMap` only fixes the key order,
which the `all_keys` iteration reproduces; entries are produced
directly in that order.  For each key: present in both sides recurses,
local-only is kept (with a deletion conflict when it was in base),
remote-only is added.  The `none, none` case is unreachable from the
`all_keys` construction (the source would raise `KeyError`). -/
def mergeDicts (b : Value) (lm rm : List (String × Value)) (p : String) :
    List (String × Value) × List MergeConflict :=
  let pieces := (extendKeys (keysOf lm) (keysOf rm)).map (fun k =>
    match hl : lookupStr k lm, lookupStr k rm with
    | some lv, some rv =>
      let m := deepMerge (baseGet b k) lv rv (keyPath p k)
      ([(k, m.1)], m.2)
    | some lv, none =>
      ([(k, lv)],
        if baseHasKey b k then
          [mkConflict (keyPath p k) (baseGet b k) lv Value.null]
        else [])
    | none, some rv => ([(k, rv)], [])
    | none, none => ([], []))
  (pieces.flatMap Prod.fst, pieces.flatMap Prod.snd)
termination_by (sizeOf lm, 2)
decreasing_by
  simp_wf
  exact Prod.Lex.left _ _ (lookupStr_sizeOf hl)

/-- `PreservingYAMLMerger._merge_lists` (merger.py lines 153-168): named
lists are delegated; positional lists conflict as a whole when both
sides changed differently, otherwise take whichever side changed. -/
def mergeLists (b : Value) (ll rl : List Value) (p : String) :
    Value × List MergeConflict :=
  if isNamedList ll || isNamedList rl then
    mergeNamedLists b ll rl p
  else if !pyEq (.seq ll) b && !pyEq (.seq rl) b && !pyEq (.seq ll) (.seq rl) then
    (.seq ll, [mkConflict p b (.seq ll) (.seq rl)])
  else if !pyEq (.seq ll) b then (.seq ll, [])
  else (.seq rl, [])
termination_by (sizeOf ll, 2)

/-- `PreservingYAMLMerger._merge_named_lists` (merger.py lines 178-216).
Each local mapping item with a truthy name is merged with the remote
item of the same name (or kept when remote has none); other local items
are skipped; remote-only items are appended in remote index order.
The `local_by_name` index computed by the source is never read and is
omitted.  `(base or [])` over a truthy non-sequence would raise in the
source; it yields `[]` here. -/
def mergeNamedLists (b : Value) (ll rl : List Value) (p : String) :
    Value × List MergeConflict :=
  let res := namedLoop (byName (seqItems b)) (byName rl) p ll
  (.seq (res.1 ++ remoteOnlyItems (byName rl) res.2.1), res.2.2)
termination_by (sizeOf ll, 1)

/-- The first loop of `_merge_named_lists` (merger.py lines 193-209):
returns (merged local items, seen names, conflicts). -/
def namedLoop (bBy rBy : List (Value × Value)) (p : String) :
    List Value → List Value × List Value × List MergeConflict
  | [] => ([], [], [])
  | it :: rest =>
    let tail := namedLoop bBy rBy p rest
    if isMapV it then
      let name := pyGetName it
      if isTruthy name then
        match lookupPyKey name rBy with
        | some rit =>
          let bi := (lookupPyKey name bBy).getD (.map [])
          let m := deepMerge bi it rit (p ++ "[name=" ++ pyStr name ++ "]")
          (m.1 :: tail.1, name :: tail.2.1, m.2 ++ tail.2.2)
        | none => (it :: tail.1, name :: tail.2.1, tail.2.2)
      else tail
    else tail
termination_by items => (sizeOf items, 0)

end

/-- `PreservingYAMLMerger.merge` (merger.py lines 53-64): reset the
conflict list, deep-merge from the empty path, and return the merged
tree with the conflicts. -/
def merge (b l r : Value) : Value × List MergeConflict :=
  deepMerge b l r ""

/-! ### Well-formed documents and the no-op-local side condition -/

/-- No key occurs twice, as in a Python dict. -/
def nodupKeys : List String → Bool
  | [] => true
  | k :: ks => !ks.contains k && nodupKeys ks

mutual

/-- Well-formedness of a document tree: every mapping reachable in it
has pairwise distinct keys.  Every tree produced by the YAML loader is
well-formed; values outside this set do not arise in the source. -/
def wfValue : Value → Bool
  | .null => true
  | .bool _ => true
  | .int _ => true
  | .str _ => true
  | .seq xs => wfList xs
  | .map xs => nodupKeys (keysOf xs) && wfEntries xs
termination_by v => sizeOf v

/-- Well-formedness of every element of a sequence. -/
def wfList : List Value → Bool
  | [] => true
  | x :: xs => wfValue x && wfList xs
termination_by xs => sizeOf xs

/-- Well-formedness of every value of a mapping. -/
def wfEntries : List (String × Value) → Bool
  | [] => true
  | (_, v) :: xs => wfValue v && wfEntries xs
termination_by xs => sizeOf xs
decreasing_by all_goals (simp_wf <;> omega)

end

mutual

/-- The side condition under which `merge(B, B, R)` reproduces `R`:
at every jointly reached node, either the two sides are already equal,
or they are mappings such that every base key is still present in the
remote mapping (recursively), or they are sequences neither of which is
detected as a named list, or they differ in kind. -/
def noopOk : Value → Value → Bool
  | b, r =>
    pyEq b r ||
      match b, r with
      | .map bm, .map rm => noopEntries bm rm
      | .seq bl, .seq rl => !isNamedList bl && !isNamedList rl
      | _, _ => true
termination_by b r => sizeOf b

/-- Every base entry has its key in the remote mapping, recursively
satisfying `noopOk`. -/
def noopEntries : List (String × Value) → List (String × Value) → Bool
  | [], _ => true
  | (k, v) :: xs, rm =>
    (match lookupStr k rm with
     | some w => noopOk v w
     | none => false) && noopEntries xs rm
termination_by xs _ => sizeOf xs

end

/-- The per-key merged entry of `_merge_dicts` (merger.py lines
134-149), matching the mapping of `mergeDicts` over `all_keys`. -/
def entryFor (b : Value) (lm rm : List (String × Value)) (p k : String) :
    List (String × Value) :=
  match lookupStr k lm, lookupStr k rm with
  | some lv, some rv => [(k, (deepMerge (baseGet b k) lv rv (keyPath p k)).1)]
  | some lv, none => [(k, lv)]
  | none, some rv => [(k, rv)]
  | none, none => []

/-- The per-key conflicts of `_merge_dicts` (merger.py lines 134-149). -/
def confFor (b : Value) (lm rm : List (String × Value)) (p k : String) :
    List MergeConflict :=
  match lookupStr k lm, lookupStr k rm with
  | some lv, some rv => (deepMerge (baseGet b k) lv rv (keyPath p k)).2
  | some lv, none =>
    if baseHasKey b k then
      [mkConflict (keyPath p k) (baseGet b k) lv Value.null]
    else []
  | none, some rv => []
  | none, none => []

/-- A local item of a named-list merge that the first loop of
`_merge_named_lists` skips with certainty: either not a mapping, or its
name is null (also covering a missing `name` key) or the empty
string. -/
def droppedNamedItem (it : Value) : Bool :=
  !isMapV it ||
    (match pyGetName it with
     | .null => true
     | .str s => s == ""
     | _ => false)

/-! ### The templated-text merger (`HelmTemplateMerger`) -/

/-- Kind of a tokenised template block: static text or a `(` `{` `{` … `}`
`}` `)` directive. -/
inductive BKind where
  | static : BKind
  | directive : BKind
deriving DecidableEq

/-- A tokenised block: kind and text, the `(kind, text)` tuples built by
`extract_blocks`. -/
abbrev Block := BKind × String

/-- The opening brace character. -/
def lbraceChar : Char := Char.ofNat 123

/-- The closing brace character. -/
def rbraceChar : Char := Char.ofNat 125

/-- Python `str.strip()` whitespace: space, tab, newline, carriage
return, vertical tab, form feed. -/
def isPySpace (c : Char) : Bool :=
  c == ' ' || c == '\t' || c == '\n' || c == '\r' ||
    c == Char.ofNat 11 || c == Char.ofNat 12

/-- A static part survives `extract_blocks` only if `part.strip()` is
non-empty; the unstripped text is kept. -/
def staticPart (acc : List Char) : List Block :=
  if acc.any (fun c => !isPySpace c) then [(.static, String.mk acc)] else []

/-- Match the directive regex `(` `{` `{` `[^}]*` `}` `}` `)` at the head of the
character list: two opening braces, a maximal run without a closing
brace, then exactly two closing braces.  Returns the directive text and
the remaining characters. -/
def takeDirective : List Char → Option (List Char × List Char)
  | c1 :: c2 :: rest =>
    if c1 == lbraceChar && c2 == lbraceChar then
      let inner := rest.takeWhile (fun c => c != rbraceChar)
      match rest.dropWhile (fun c => c != rbraceChar) with
      | d1 :: d2 :: rest3 =>
        if d1 == rbraceChar && d2 == rbraceChar then
          some (lbraceChar :: lbraceChar :: (inner ++ [rbraceChar, rbraceChar]),
            rest3)
        else none
      | _ => none
    else none
  | _ => none

/-- A matched directive consumes at least four characters. -/
theorem takeDirective_length {xs d r : List Char}
    (h : takeDirective xs = some (d, r)) : r.length < xs.length := by
  match xs with
  | [] => simp [takeDirective] at h
  | [c1] => simp [takeDirective] at h
  | c1 :: c2 :: rest =>
    by_cases hb : (c1 == lbraceChar && c2 == lbraceChar) = true
    · simp only [takeDirective, hb, if_true] at h
      have hd : (rest.dropWhile (fun c => c != rbraceChar)).length ≤ rest.length :=
        List.Sublist.length_le (List.dropWhile_sublist _)
      match hw : rest.dropWhile (fun c => c != rbraceChar) with
      | [] => rw [hw] at h; simp at h
      | [d1] => rw [hw] at h; simp at h
      | d1 :: d2 :: rest3 =>
        rw [hw] at h
        by_cases hb2 : (d1 == rbraceChar && d2 == rbraceChar) = true
        · simp only [hb2, if_true, Option.some.injEq, Prod.mk.injEq] at h
          obtain ⟨-, h2⟩ := h
          subst h2
          rw [hw] at hd
          simp only [List.length_cons] at hd ⊢
          omega
        · simp [hb2] at h
    · simp [takeDirective, hb] at h

/-- The tokeniser of `HelmTemplateMerger.merge_template`
(merger.py lines 227-239): `re.split` on the directive pattern, keeping
directive blocks always and static parts only when they contain
non-whitespace.  `acc` carries the static text accumulated since the
last directive. -/
def scanBlocks (acc : List Char) : List Char → List Block
  | [] => staticPart acc
  | c :: cs =>
    match h : takeDirective (c :: cs) with
    | some dr =>
      staticPart acc ++ [(.directive, String.mk dr.1)] ++ scanBlocks [] dr.2
    | none => scanBlocks (acc ++ [c]) cs
termination_by cs => cs.length
decreasing_by
  · exact takeDirective_length h
  · simp

/-- `extract_blocks(content)` (merger.py lines 227-239). -/
def extractBlocks (content : String) : List Block :=
  scanBlocks [] content.toList

/-- The conflict-marker block written by `merge_template` (merger.py
lines 270-276).  In the Python f-string the doubled braces are escapes,
so each marker line begins with a single opening brace. -/
def conflictMarker (lclText rmtText : String) : String :=
  "\n\x7b- /* MERGE CONFLICT START */ -\x7d\n\x7b- /* LOCAL VERSION: */ -\x7d\n"
    ++ lclText
    ++ "\n\x7b- /* REMOTE VERSION: */ -\x7d\n"
    ++ rmtText
    ++ "\n\x7b- /* MERGE CONFLICT END */ -\x7d"

/-- `HelmTemplateMerger.merge_template` (merger.py lines 221-282).
When local and remote have the same number of blocks the three
tokenisations are zipped (`zip` truncates to the shortest, including
the base) and per-index scalar rules are applied, emitting a marker
block and a `block_i` conflict on double change; otherwise a single
`entire_file` conflict is returned with the local text. -/
def mergeTemplate (base lcl rmt : String) : String × List MergeConflict :=
  let bb := extractBlocks base
  let lb := extractBlocks lcl
  let rb := extractBlocks rmt
  if lb.length = rb.length then
    let pieces := (bb.zip (lb.zip rb)).enum.map (fun it =>
      let i := it.1
      let bbl := it.2.1
      let lbl := it.2.2.1
      let rbl := it.2.2.2
      if lbl = rbl then (lbl.2, ([] : List MergeConflict))
      else if lbl = bbl then (rbl.2, [])
      else if rbl = bbl then (lbl.2, [])
      else (conflictMarker lbl.2 rbl.2,
        [mkConflict ("block_" ++ toString i) (.str bbl.2) (.str lbl.2)
          (.str rbl.2)]))
    (String.join (pieces.map Prod.fst), pieces.flatMap Prod.snd)
  else
    (lcl, [mkConflict "entire_file" (.str base) (.str lcl) (.str rmt)])

/-! ### The apply stage (`TemplateUpgrader.apply_merged_files`) -/

/-- The unresolved-conflicts header step of `apply_merged_files`
(upgrade.py lines 137-160).  When some conflict has no resolution, the
code builds the header line list whose second element is the f-string
`"# Upgrade from ..."` interpolating the names `baseline` and
`target_version`; neither name is bound in the method, its class, or
the module, so evaluating the f-string raises `NameError` before any
header line exists.  When every conflict is resolved the block is
skipped and no header lines are produced. -/
def conflictHeaderStep (conflicts : List MergeConflict) :
    Except String (List String) :=
  if conflicts.any (fun c => c.resolution.isNone) then
    .error "NameError: name baseline is not defined"
  else
    .ok []

/-- The filesystem locations `apply_merged_files` mutates: the content
of the element directory and of its sibling backup directory
`.<name>.backup`, abstracted to any content type. -/
structure FSState (α : Type) where
  element : Option α
  backup : Option α
deriving DecidableEq

/-- The control skeleton of `apply_merged_files` (upgrade.py lines
108-222): remove a stale backup if present, copy the element directory
to the backup path, run the body (all the merged-file writes,
abstracted as a function from the element content to a new content or
an error), then on success delete the backup and on failure delete the
element directory, move the backup back into place and re-raise.  A
missing element directory makes the initial `copytree` itself fail,
before any backup exists. -/
def applyMergedFiles {α : Type} (body : α → Except String α)
    (fs : FSState α) : Except String Unit × FSState α :=
  match fs.element with
  | none => (.error "copytree: element directory not found",
      { element := none, backup := none })
  | some e =>
    match body e with
    | .ok e2 => (.ok (), ⟨some e2, none⟩)
    | .error msg => (.error msg, ⟨some e, none⟩)

/-! ### Association list and key-set lemmas -/

theorem lookupStr_mem {k : String} {xs : List (String × Value)} {v : Value}
    (h : lookupStr k xs = some v) : (k, v) ∈ xs := by
  induction xs with
  | nil => simp [lookupStr] at h
  | cons kv rest ih =>
    obtain ⟨k', w⟩ := kv
    by_cases hk : k = k'
    · simp [lookupStr, hk] at h
      simp [hk, h]
    · simp [lookupStr, hk] at h
      exact List.mem_cons_of_mem _ (ih h)

theorem mem_keys_iff_lookup {k : String} {xs : List (String × Value)} :
    k ∈ keysOf xs ↔ (lookupStr k xs).isSome := by
  induction xs with
  | nil => simp [keysOf, lookupStr]
  | cons kv rest ih =>
    obtain ⟨k', w⟩ := kv
    have hkeys : keysOf ((k', w) :: rest) = k' :: keysOf rest := rfl
    rw [hkeys, List.mem_cons]
    by_cases hk : k = k'
    · simp [lookupStr, hk]
    · simp only [lookupStr, hk, if_false, false_or]
      simpa [hk] using ih

theorem lookupStr_append {k : String} {xs ys : List (String × Value)} :
    lookupStr k (xs ++ ys) =
      match lookupStr k xs with
      | some v => some v
      | none => lookupStr k ys := by
  induction xs with
  | nil => simp [lookupStr]
  | cons kv rest ih =>
    obtain ⟨k', w⟩ := kv
    by_cases hk : k = k'
    · simp [lookupStr, hk]
    · simp [lookupStr, hk, ih]

theorem lookupStr_eq_none {k : String} {xs : List (String × Value)}
    (h : ∀ kv ∈ xs, kv.1 ≠ k) : lookupStr k xs = none := by
  induction xs with
  | nil => simp [lookupStr]
  | cons kv rest ih =>
    obtain ⟨k', w⟩ := kv
    have hne : k ≠ k' := fun he => h (k', w) (by simp) (by simp [he])
    simp only [lookupStr, hne, if_false]
    exact ih (fun kv hm => h kv (List.mem_cons_of_mem _ hm))

theorem nodupKeys_iff {ks : List String} : nodupKeys ks = true ↔ ks.Nodup := by
  induction ks with
  | nil => simp [nodupKeys]
  | cons k rest ih => simp [nodupKeys, ih, List.elem_iff]

theorem lookupStr_eq_of_mem_nodup {k : String} {v : Value}
    {xs : List (String × Value)} (hm : (k, v) ∈ xs)
    (hnd : (keysOf xs).Nodup) : lookupStr k xs = some v := by
  induction xs with
  | nil => simp at hm
  | cons kv rest ih =>
    obtain ⟨k', w⟩ := kv
    simp only [keysOf, List.map_cons, List.nodup_cons] at hnd
    rcases List.mem_cons.mp hm with he | hm'
    · obtain ⟨h1, h2⟩ := Prod.mk.injEq .. ▸ he
      subst h1; subst h2
      simp [lookupStr]
    · have hk : k ≠ k' := by
        intro he
        subst he
        exact hnd.1 (List.mem_map.mpr ⟨(k, v), hm', rfl⟩)
      simp only [lookupStr, hk, if_false]
      exact ih hm' hnd.2

/-! ### Lemmas about the Python equality -/

theorem pyFind_eq_lookup (k : String) (v : Value) (ys : List (String × Value)) :
    pyFind k v ys =
      match lookupStr k ys with
      | some w => pyEq v w
      | none => false := by
  induction ys with
  | nil => simp [pyFind, lookupStr]
  | cons kv rest ih =>
    obtain ⟨k', w⟩ := kv
    by_cases hk : k = k'
    · simp [pyFind, lookupStr, hk]
    · simp [pyFind, lookupStr, hk, ih]

theorem pyMapLe_iff {xs ys : List (String × Value)} :
    pyMapLe xs ys = true ↔ ∀ kv ∈ xs, pyFind kv.1 kv.2 ys = true := by
  induction xs with
  | nil => simp [pyMapLe]
  | cons kv rest ih =>
    obtain ⟨k, v⟩ := kv
    simp [pyMapLe, ih]

theorem pyFind_true_mem {k : String} {v : Value} {ys : List (String × Value)}
    (h : pyFind k v ys = true) : k ∈ keysOf ys := by
  rw [pyFind_eq_lookup] at h
  rw [mem_keys_iff_lookup]
  cases hl : lookupStr k ys with
  | none => rw [hl] at h; simp at h
  | some w => simp

theorem pyFind_false_of_not_mem {k : String} {v : Value}
    {ys : List (String × Value)} (h : ¬k ∈ keysOf ys) :
    pyFind k v ys = false := by
  rw [pyFind_eq_lookup]
  cases hl : lookupStr k ys with
  | none => simp
  | some w =>
    exact absurd (mem_keys_iff_lookup.mpr (by simp [hl])) h

/-! ### Lemmas about well-formedness and the no-op condition -/

theorem wfEntries_mem {xs : List (String × Value)} {k : String} {v : Value}
    (h : wfEntries xs = true) (hm : (k, v) ∈ xs) : wfValue v = true := by
  induction xs with
  | nil => simp at hm
  | cons kv rest ih =>
    obtain ⟨k', w⟩ := kv
    rw [wfEntries] at h
    simp only [Bool.and_eq_true] at h
    rcases List.mem_cons.mp hm with he | hm'
    · obtain ⟨-, h2⟩ := Prod.mk.injEq .. ▸ he
      subst h2
      exact h.1
    · exact ih h.2 hm'

theorem wfList_mem {xs : List Value} {x : Value}
    (h : wfList xs = true) (hm : x ∈ xs) : wfValue x = true := by
  induction xs with
  | nil => simp at hm
  | cons y rest ih =>
    rw [wfList] at h
    simp only [Bool.and_eq_true] at h
    rcases List.mem_cons.mp hm with he | hm'
    · subst he; exact h.1
    · exact ih h.2 hm'

theorem noopEntries_forall {bm rm : List (String × Value)}
    (h : noopEntries bm rm = true) :
    ∀ kv ∈ bm, ∃ w, lookupStr kv.1 rm = some w ∧ noopOk kv.2 w = true := by
  induction bm with
  | nil => simp
  | cons kv rest ih =>
    obtain ⟨k, v⟩ := kv
    rw [noopEntries] at h
    simp only [Bool.and_eq_true] at h
    intro kv' hm
    rcases List.mem_cons.mp hm with he | hm'
    · subst he
      cases hl : lookupStr k rm with
      | none => rw [hl] at h; simp at h
      | some w =>
        rw [hl] at h
        exact ⟨w, rfl, h.1⟩
    · exact ih h.2 kv' hm'

theorem sizeOf_snd_lt_of_mem {kv : String × Value}
    {xs : List (String × Value)} (h : kv ∈ xs) : sizeOf kv.2 < sizeOf xs := by
  have hlt := List.sizeOf_lt_of_mem h
  obtain ⟨k, v⟩ := kv
  simp at hlt ⊢
  omega

theorem pyEqList_refl_of {xs : List Value}
    (h : ∀ x ∈ xs, pyEq x x = true) : pyEqList xs xs = true := by
  induction xs with
  | nil => simp [pyEqList]
  | cons x rest ih =>
    rw [pyEqList]
    simp only [Bool.and_eq_true]
    exact ⟨h x (by simp), ih (fun y hy => h y (by simp [hy]))⟩

theorem pyMapLe_refl_of {xs : List (String × Value)}
    (hnd : (keysOf xs).Nodup)
    (h : ∀ kv ∈ xs, pyEq kv.2 kv.2 = true) : pyMapLe xs xs = true := by
  rw [pyMapLe_iff]
  intro kv hm
  rw [pyFind_eq_lookup]
  obtain ⟨k, v⟩ := kv
  rw [lookupStr_eq_of_mem_nodup hm hnd]
  exact h (k, v) hm

theorem pyEq_refl_aux :
    ∀ (n : Nat) (v : Value), sizeOf v ≤ n → wfValue v = true →
      pyEq v v = true := by
  intro n
  induction n with
  | zero =>
    intro v h _
    exfalso
    cases v <;> simp at h
  | succ n ih =>
    intro v hsz hwf
    match v with
    | .null => simp [pyEq]
    | .bool _ => simp [pyEq]
    | .int _ => simp [pyEq]
    | .str _ => simp [pyEq]
    | .seq xs =>
      rw [pyEq]
      refine pyEqList_refl_of (fun x hx => ih x ?_ ?_)
      · have := List.sizeOf_lt_of_mem hx
        simp at hsz
        omega
      · rw [wfValue] at hwf
        exact wfList_mem hwf hx
    | .map xs =>
      rw [pyEq]
      rw [wfValue] at hwf
      simp only [Bool.and_eq_true] at hwf
      have hle : pyMapLe xs xs = true := by
        refine pyMapLe_refl_of (nodupKeys_iff.mp hwf.1) (fun kv hm => ?_)
        refine ih kv.2 ?_ ?_
        · have := sizeOf_snd_lt_of_mem hm
          simp at hsz
          omega
        · obtain ⟨k, w⟩ := kv
          exact wfEntries_mem hwf.2 hm
      simp [hle]

theorem pyEq_refl {v : Value} (hwf : wfValue v = true) : pyEq v v = true :=
  pyEq_refl_aux (sizeOf v) v (Nat.le_refl _) hwf

theorem pyEqList_symm_of {xs ys : List Value}
    (h : ∀ x ∈ xs, ∀ y ∈ ys, pyEq x y = pyEq y x) :
    pyEqList xs ys = pyEqList ys xs := by
  induction xs generalizing ys with
  | nil => cases ys <;> simp [pyEqList]
  | cons x rest ih =>
    cases ys with
    | nil => simp [pyEqList]
    | cons y rest2 =>
      rw [pyEqList, pyEqList, h x (by simp) y (by simp),
        ih (fun a ha b hb => h a (by simp [ha]) b (by simp [hb]))]

theorem pyEq_symm_aux :
    ∀ (n : Nat) (a b : Value), sizeOf a + sizeOf b ≤ n →
      pyEq a b = pyEq b a := by
  intro n
  induction n with
  | zero =>
    intro a b h
    exfalso
    cases a <;> simp at h
  | succ n ih =>
    intro a b hsz
    match a, b with
    | .null, .null => rfl
    | .bool x, .bool y => simp [pyEq, Bool.beq_comm]
    | .bool x, .int m =>
      rw [pyEq, pyEq]
      by_cases h : (if x then (1 : Int) else 0) = m
      · simp [h]
      · simp [h, Ne.symm h]
    | .int m, .bool x =>
      rw [pyEq, pyEq]
      by_cases h : (if x then (1 : Int) else 0) = m
      · simp [h]
      · simp [h, Ne.symm h]
    | .int m, .int k =>
      rw [pyEq, pyEq]
      by_cases h : m = k
      · simp [h]
      · simp [h, Ne.symm h]
    | .str s, .str t =>
      rw [pyEq, pyEq]
      by_cases h : s = t
      · simp [h]
      · simp [h, Ne.symm h]
    | .seq xs, .seq ys =>
      rw [pyEq, pyEq]
      refine pyEqList_symm_of (fun x hx y hy => ih x y ?_)
      have h1 := List.sizeOf_lt_of_mem hx
      have h2 := List.sizeOf_lt_of_mem hy
      simp at hsz
      omega
    | .map xs, .map ys =>
      rw [pyEq, pyEq, Bool.and_comm]
    | .null, .bool _ | .null, .int _ | .null, .str _ | .null, .seq _
    | .null, .map _ | .bool _, .null | .bool _, .str _ | .bool _, .seq _
    | .bool _, .map _ | .int _, .null | .int _, .str _ | .int _, .seq _
    | .int _, .map _ | .str _, .null | .str _, .bool _ | .str _, .int _
    | .str _, .seq _ | .str _, .map _ | .seq _, .null | .seq _, .bool _
    | .seq _, .int _ | .seq _, .str _ | .seq _, .map _ | .map _, .null
    | .map _, .bool _ | .map _, .int _ | .map _, .str _ | .map _, .seq _ =>
      simp [pyEq]

theorem pyEq_symm (a b : Value) : pyEq a b = pyEq b a :=
  pyEq_symm_aux (sizeOf a + sizeOf b) a b (Nat.le_refl _)

theorem pyEqList_trans_of {xs ys zs : List Value}
    (hIH : ∀ v ∈ xs, ∀ w ∈ ys, ∀ u ∈ zs,
      pyEq v w = true → pyEq w u = true → pyEq v u = true)
    (h1 : pyEqList xs ys = true) (h2 : pyEqList ys zs = true) :
    pyEqList xs zs = true := by
  induction xs generalizing ys zs with
  | nil =>
    cases ys with
    | nil => cases zs with
      | nil => simp [pyEqList]
      | cons z r => simp [pyEqList] at h2
    | cons y r => simp [pyEqList] at h1
  | cons x rest ih =>
    cases ys with
    | nil => simp [pyEqList] at h1
    | cons y rest2 =>
      cases zs with
      | nil => simp [pyEqList] at h2
      | cons z rest3 =>
        rw [pyEqList] at h1 h2 ⊢
        simp only [Bool.and_eq_true] at h1 h2 ⊢
        refine ⟨hIH x (by simp) y (by simp) z (by simp) h1.1 h2.1, ?_⟩
        exact ih
          (fun v hv w hw u hu => hIH v (by simp [hv]) w (by simp [hw])
            u (by simp [hu]))
          h1.2 h2.2

theorem pyMapLe_trans_of {xs ys zs : List (String × Value)}
    (hIH : ∀ kv ∈ xs, ∀ kw ∈ ys, ∀ ku ∈ zs,
      pyEq kv.2 kw.2 = true → pyEq kw.2 ku.2 = true → pyEq kv.2 ku.2 = true)
    (h1 : pyMapLe xs ys = true) (h2 : pyMapLe ys zs = true) :
    pyMapLe xs zs = true := by
  rw [pyMapLe_iff] at h1 h2 ⊢
  intro kv hm
  obtain ⟨k, v⟩ := kv
  have hf := h1 _ hm
  rw [pyFind_eq_lookup] at hf
  cases hw : lookupStr k ys with
  | none => rw [hw] at hf; simp at hf
  | some w =>
    rw [hw] at hf
    have hwmem := lookupStr_mem hw
    have hf2 := h2 _ hwmem
    rw [pyFind_eq_lookup] at hf2 ⊢
    cases hu : lookupStr k zs with
    | none => rw [hu] at hf2; simp at hf2
    | some u =>
      rw [hu] at hf2
      exact hIH (k, v) hm (k, w) hwmem (k, u) (lookupStr_mem hu) hf hf2

theorem pyEq_trans_aux :
    ∀ (n : Nat) (a b c : Value), sizeOf a + sizeOf b + sizeOf c ≤ n →
      pyEq a b = true → pyEq b c = true → pyEq a c = true := by
  intro n
  induction n with
  | zero =>
    intro a b c h _ _
    exfalso
    cases a <;> simp at h
  | succ n ih =>
    intro a b c hsz h1 h2
    match a, b, c with
    | .null, .null, .null => simp [pyEq]
    | .bool x, .bool y, .bool z =>
      simp only [pyEq, beq_iff_eq] at h1 h2 ⊢
      exact h1.trans h2
    | .bool x, .bool y, .int m =>
      simp only [pyEq, beq_iff_eq] at h1 h2 ⊢
      rw [h1]; exact h2
    | .bool x, .int m, .bool z =>
      simp only [pyEq, beq_iff_eq] at h1 h2 ⊢
      cases x <;> cases z <;> simp_all
    | .bool x, .int m, .int k =>
      simp only [pyEq, beq_iff_eq] at h1 h2 ⊢
      exact h1.trans h2
    | .int m, .bool y, .bool z =>
      simp only [pyEq, beq_iff_eq] at h1 h2 ⊢
      rw [← h2]; exact h1
    | .int m, .bool y, .int k =>
      simp only [pyEq, beq_iff_eq] at h1 h2 ⊢
      exact h1.trans h2
    | .int m, .int k, .bool z =>
      simp only [pyEq, beq_iff_eq] at h1 h2 ⊢
      exact h1.trans h2
    | .int m, .int k, .int j =>
      simp only [pyEq, beq_iff_eq] at h1 h2 ⊢
      exact h1.trans h2
    | .str s, .str t, .str u =>
      simp only [pyEq, beq_iff_eq] at h1 h2 ⊢
      exact h1.trans h2
    | .seq xs, .seq ys, .seq zs =>
      simp only [pyEq] at h1 h2 ⊢
      refine pyEqList_trans_of (fun v hv w hw u hu => ih v w u ?_) h1 h2
      have hv' := List.sizeOf_lt_of_mem hv
      have hw' := List.sizeOf_lt_of_mem hw
      have hu' := List.sizeOf_lt_of_mem hu
      simp at hsz
      omega
    | .map xs, .map ys, .map zs =>
      simp only [pyEq] at h1 h2 ⊢
      simp only [Bool.and_eq_true] at h1 h2 ⊢
      have hIH1 : ∀ kv ∈ xs, ∀ kw ∈ ys, ∀ ku ∈ zs,
          pyEq kv.2 kw.2 = true → pyEq kw.2 ku.2 = true →
            pyEq kv.2 ku.2 = true := by
        intro kv hv kw hw ku hu
        refine ih kv.2 kw.2 ku.2 ?_
        have hv' := sizeOf_snd_lt_of_mem hv
        have hw' := sizeOf_snd_lt_of_mem hw
        have hu' := sizeOf_snd_lt_of_mem hu
        simp at hsz
        omega
      have hIH2 : ∀ kv ∈ zs, ∀ kw ∈ ys, ∀ ku ∈ xs,
          pyEq kv.2 kw.2 = true → pyEq kw.2 ku.2 = true →
            pyEq kv.2 ku.2 = true := by
        intro kv hv kw hw ku hu
        refine ih kv.2 kw.2 ku.2 ?_
        have hv' := sizeOf_snd_lt_of_mem hv
        have hw' := sizeOf_snd_lt_of_mem hw
        have hu' := sizeOf_snd_lt_of_mem hu
        simp at hsz
        omega
      exact ⟨pyMapLe_trans_of hIH1 h1.1 h2.1,
        pyMapLe_trans_of hIH2 h2.2 h1.2⟩
    | .null, .null, .bool _ | .null, .null, .int _ | .null, .null, .str _
    | .null, .null, .seq _ | .null, .null, .map _ =>
      simp [pyEq] at h2
    | .bool _, .bool _, .null | .bool _, .bool _, .str _
    | .bool _, .bool _, .seq _ | .bool _, .bool _, .map _
    | .bool _, .int _, .null | .bool _, .int _, .str _
    | .bool _, .int _, .seq _ | .bool _, .int _, .map _
    | .int _, .bool _, .null | .int _, .bool _, .str _
    | .int _, .bool _, .seq _ | .int _, .bool _, .map _
    | .int _, .int _, .null | .int _, .int _, .str _
    | .int _, .int _, .seq _ | .int _, .int _, .map _
    | .str _, .str _, .null | .str _, .str _, .bool _
    | .str _, .str _, .int _ | .str _, .str _, .seq _
    | .str _, .str _, .map _
    | .seq _, .seq _, .null | .seq _, .seq _, .bool _
    | .seq _, .seq _, .int _ | .seq _, .seq _, .str _
    | .seq _, .seq _, .map _
    | .map _, .map _, .null | .map _, .map _, .bool _
    | .map _, .map _, .int _ | .map _, .map _, .seq _
    | .map _, .map _, .str _ =>
      simp [pyEq] at h2
    | .null, .bool _, _ | .null, .int _, _ | .null, .str _, _
    | .null, .seq _, _ | .null, .map _, _ | .bool _, .null, _
    | .bool _, .str _, _ | .bool _, .seq _, _ | .bool _, .map _, _
    | .int _, .null, _ | .int _, .str _, _ | .int _, .seq _, _
    | .int _, .map _, _ | .str _, .null, _ | .str _, .bool _, _
    | .str _, .int _, _ | .str _, .seq _, _ | .str _, .map _, _
    | .seq _, .null, _ | .seq _, .bool _, _ | .seq _, .int _, _
    | .seq _, .str _, _ | .seq _, .map _, _ | .map _, .null, _
    | .map _, .bool _, _ | .map _, .int _, _ | .map _, .str _, _
    | .map _, .seq _, _ =>
      simp [pyEq] at h1

theorem pyEq_trans {a b c : Value} (h1 : pyEq a b = true)
    (h2 : pyEq b c = true) : pyEq a c = true :=
  pyEq_trans_aux (sizeOf a + sizeOf b + sizeOf c) a b c (Nat.le_refl _) h1 h2

/-! ### Characterisation of the mapping merge -/

theorem mergeDicts_eq (b : Value) (lm rm : List (String × Value))
    (p : String) :
    mergeDicts b lm rm p =
      ((extendKeys (keysOf lm) (keysOf rm)).flatMap (entryFor b lm rm p),
       (extendKeys (keysOf lm) (keysOf rm)).flatMap (confFor b lm rm p)) := by
  rw [mergeDicts]
  generalize extendKeys (keysOf lm) (keysOf rm) = keys
  induction keys with
  | nil => simp [entryFor, confFor]
  | cons k rest ih =>
    simp only [List.map_cons, List.flatMap_cons]
    obtain ⟨ih1, ih2⟩ := Prod.mk.injEq .. ▸ ih
    cases hl : lookupStr k lm <;> cases hr : lookupStr k rm <;>
      simp only [hl, hr, entryFor, confFor] <;>
      simp only [List.flatMap_cons, List.map_cons] at ih1 ih2 ⊢ <;>
      simp [ih1, ih2, hl, hr]

theorem entryFor_key {b : Value} {lm rm : List (String × Value)}
    {p k : String} {kv : String × Value}
    (h : kv ∈ entryFor b lm rm p k) : kv.1 = k := by
  rw [entryFor] at h
  cases hl : lookupStr k lm <;> cases hr : lookupStr k rm <;>
    rw [hl, hr] at h <;> simp at h <;> simp [h]

theorem contains_true_iff {l : List String} {a : String} :
    l.contains a = true ↔ a ∈ l := List.elem_iff

theorem contains_false_of_not_mem {l : List String} {a : String}
    (h : a ∉ l) : l.contains a = false := by
  cases hc : l.contains a
  · rfl
  · exact absurd (contains_true_iff.mp hc) h

theorem extendKeys_nil (acc : List String) : extendKeys acc [] = acc := rfl

theorem extendKeys_cons (acc : List String) (k : String) (ks : List String) :
    extendKeys acc (k :: ks) =
      extendKeys (if acc.contains k then acc else acc ++ [k]) ks := by
  rw [extendKeys, extendKeys, List.foldl_cons]

theorem extendKeys_mem {ks : List String} :
    ∀ {acc : List String} {k : String},
      (k ∈ extendKeys acc ks ↔ k ∈ acc ∨ k ∈ ks) := by
  induction ks with
  | nil => intro acc k; simp [extendKeys_nil]
  | cons k' rest ih =>
    intro acc k
    rw [extendKeys_cons]
    by_cases hc : acc.contains k'
    · rw [if_pos hc, ih]
      have hk' : k' ∈ acc := contains_true_iff.mp hc
      have himp : k = k' → k ∈ acc := fun he => he ▸ hk'
      simp only [List.mem_cons]
      tauto
    · rw [if_neg hc, ih]
      simp only [List.mem_append, List.mem_cons, List.mem_singleton,
        List.not_mem_nil, or_false]
      tauto

theorem extendKeys_nodup {ks acc : List String} (h : acc.Nodup) :
    (extendKeys acc ks).Nodup := by
  induction ks generalizing acc with
  | nil => exact h
  | cons k rest ih =>
    rw [extendKeys_cons]
    by_cases hc : acc.contains k
    · rw [if_pos hc]
      exact ih h
    · rw [if_neg hc]
      refine ih ?_
      rw [List.nodup_append]
      refine ⟨h, List.nodup_singleton k, ?_⟩
      intro a ha hb
      rw [List.mem_singleton] at hb
      subst hb
      exact hc (contains_true_iff.mpr ha)

theorem extendKeys_eq_append_filter {ks : List String} (hnd : ks.Nodup) :
    ∀ acc : List String,
      extendKeys acc ks = acc ++ ks.filter (fun k => !acc.contains k) := by
  induction ks with
  | nil => intro acc; simp [extendKeys_nil]
  | cons k rest ih =>
    intro acc
    rw [List.nodup_cons] at hnd
    rw [extendKeys_cons, List.filter_cons]
    by_cases hc : acc.contains k
    · rw [if_pos hc, ih hnd.2 acc, hc]
      simp
    · have hcf : acc.contains k = false :=
        contains_false_of_not_mem (fun hm => hc (contains_true_iff.mpr hm))
      rw [if_neg hc, ih hnd.2 (acc ++ [k]), hcf]
      simp only [Bool.not_false, if_pos]
      have hfe : rest.filter (fun x => !(acc ++ [k]).contains x)
          = rest.filter (fun x => !acc.contains x) := by
        refine List.filter_congr (fun x hx => ?_)
        have hxk : x ≠ k := fun he => hnd.1 (he ▸ hx)
        by_cases hm : x ∈ acc
        · rw [contains_true_iff.mpr hm,
            contains_true_iff.mpr (by rw [List.mem_append]; exact Or.inl hm)]
        · rw [contains_false_of_not_mem hm, contains_false_of_not_mem ?_]
          intro hmm
          rw [List.mem_append, List.mem_singleton] at hmm
          rcases hmm with h | h
          · exact hm h
          · exact hxk h
      rw [hfe]
      simp

theorem flatMap_eq_nil_of {α β : Type} {l : List α} {f : α → List β}
    (h : ∀ a ∈ l, f a = []) : l.flatMap f = [] := by
  induction l with
  | nil => simp
  | cons a rest ih =>
    rw [List.flatMap_cons, h a (by simp), List.nil_append]
    exact ih (fun x hx => h x (by simp [hx]))

theorem keysOf_flatMap_entry {b : Value} {lm rm : List (String × Value)}
    {p : String} {keys : List String}
    (h : ∀ k ∈ keys, (lookupStr k lm).isSome ∨ (lookupStr k rm).isSome) :
    keysOf (keys.flatMap (entryFor b lm rm p)) = keys := by
  induction keys with
  | nil => simp [keysOf]
  | cons k rest ih =>
    rw [List.flatMap_cons]
    have hk := h k (by simp)
    have hone : keysOf (entryFor b lm rm p k) = [k] := by
      rw [entryFor]
      cases hl : lookupStr k lm <;> cases hr : lookupStr k rm <;>
        simp [keysOf]
      rw [hl, hr] at hk
      simp at hk
    rw [keysOf, List.map_append]
    rw [keysOf] at hone ih
    rw [hone, ih (fun x hx => h x (by simp [hx]))]
    rfl

theorem lookupStr_flatMap {g : String → List (String × Value)}
    (hg : ∀ k' kv, kv ∈ g k' → kv.1 = k') {keys : List String}
    {k : String} {v : Value} (hk : k ∈ keys)
    (he : lookupStr k (g k) = some v) :
    lookupStr k (keys.flatMap g) = some v := by
  induction keys with
  | nil => simp at hk
  | cons k' rest ih =>
    rw [List.flatMap_cons, lookupStr_append]
    by_cases hkk : k = k'
    · subst hkk
      rw [he]
    · have hnone : lookupStr k (g k') = none :=
        lookupStr_eq_none (fun kv hm => by
          rw [hg k' kv hm]; exact Ne.symm hkk)
      rw [hnone]
      rcases List.mem_cons.mp hk with he2 | hm2
      · exact absurd he2 hkk
      · exact ih hm2

/-! ### Unfolding lemmas for the deep merge -/

theorem deepMerge_of_pyEq {b l r : Value} {p : String}
    (h : pyEq l r = true) : deepMerge b l r p = (l, []) := by
  rw [deepMerge.eq_def, h]
  simp

theorem deepMerge_map_map {b : Value} {lm rm : List (String × Value)}
    {p : String} (h : pyEq (.map lm) (.map rm) = false) :
    deepMerge b (.map lm) (.map rm) p =
      (.map (mergeDicts (if isTruthy b then b else .map []) lm rm p).1,
       (mergeDicts (if isTruthy b then b else .map []) lm rm p).2) := by
  rw [deepMerge, h]
  simp

theorem deepMerge_seq_seq {b : Value} {ll rl : List Value} {p : String}
    (h : pyEq (.seq ll) (.seq rl) = false) :
    deepMerge b (.seq ll) (.seq rl) p =
      mergeLists (if isTruthy b then b else .seq []) ll rl p := by
  rw [deepMerge, h]
  simp

theorem deepMerge_scalar {b l r : Value} {p : String}
    (h1 : (isMapV l && isMapV r) = false)
    (h2 : (isSeqV l && isSeqV r) = false) :
    deepMerge b l r p =
      if pyEq l r then (l, [])
      else if pyEq b l then (r, [])
      else if pyEq b r then (l, [])
      else (l, [mkConflict p b l r]) := by
  cases l <;> cases r <;>
    first
      | (simp [isMapV, isSeqV] at h1 h2; done)
      | (rw [deepMerge] <;> simp)

theorem pyMapLe_keys_sub {xs ys : List (String × Value)}
    (h : pyMapLe xs ys = true) : ∀ k ∈ keysOf xs, k ∈ keysOf ys := by
  intro k hk
  rw [keysOf] at hk
  obtain ⟨kv, hm, he⟩ := List.mem_map.mp hk
  have := pyFind_true_mem (pyMapLe_iff.mp h kv hm)
  rw [he] at this
  exact this

/-- Claim C6: in a merged mapping, the keys are the local keys first in
local insertion order, followed by the remote-only keys in their remote
order; consequently the sub-sequence of merged keys that are present
locally equals the local key order.  Quantifying over all mapping
triples covers every path of the merged tree, since every nested
mapping node of the result is produced by this same merge applied to
the sub-mappings. -/
theorem C6_merged_mapping_key_order (B : Value) (L R : List (String × Value))
    (p : String) (hndR : (keysOf R).Nodup) :
    ∃ M cs,
      deepMerge B (.map L) (.map R) p = (.map M, cs) ∧
      keysOf M = keysOf L ++ (keysOf R).filter (fun k => !(keysOf L).contains k) ∧
      (keysOf M).filter (fun k => (keysOf L).contains k) = keysOf L := by
  have hLfil : (keysOf L).filter (fun k => (keysOf L).contains k) = keysOf L := by
    refine List.filter_eq_self.mpr (fun a ha => ?_)
    exact contains_true_iff.mpr ha
  by_cases hpe : pyEq (.map L) (.map R) = true
  · refine ⟨L, [], deepMerge_of_pyEq hpe, ?_, hLfil⟩
    have hsub : ∀ k ∈ keysOf R, k ∈ keysOf L := by
      rw [pyEq] at hpe
      simp only [Bool.and_eq_true] at hpe
      exact pyMapLe_keys_sub hpe.2
    have hfil : (keysOf R).filter (fun k => !(keysOf L).contains k) = [] := by
      refine List.filter_eq_nil_iff.mpr (fun a ha => ?_)
      simp [contains_true_iff, hsub a ha]
    rw [hfil, List.append_nil]
  · rw [Bool.not_eq_true] at hpe
    rw [deepMerge_map_map hpe, mergeDicts_eq]
    have hside : ∀ k ∈ extendKeys (keysOf L) (keysOf R),
        (lookupStr k L).isSome ∨ (lookupStr k R).isSome := by
      intro k hk
      rcases extendKeys_mem.mp hk with hm | hm
      · exact Or.inl (mem_keys_iff_lookup.mp hm)
      · exact Or.inr (mem_keys_iff_lookup.mp hm)
    refine ⟨_, _, rfl, ?_, ?_⟩
    · rw [keysOf_flatMap_entry hside]
      exact extendKeys_eq_append_filter hndR (keysOf L)
    · rw [keysOf_flatMap_entry hside, extendKeys_eq_append_filter hndR,
        List.filter_append, hLfil]
      have h2 : ((keysOf R).filter (fun k => !(keysOf L).contains k)).filter
          (fun k => (keysOf L).contains k) = [] := by
        refine List.filter_eq_nil_iff.mpr (fun a ha => ?_)
        have := List.of_mem_filter ha
        simp only [Bool.not_eq_true'] at this
        simp [this]
        intro hm
        rw [contains_true_iff.mpr hm] at this
        simp at this
      rw [h2, List.append_nil]

theorem keysOf_filter_ne (R : List (String × Value)) (k : String) :
    keysOf (R.filter (fun kv => !(kv.1 == k)))
      = (keysOf R).filter (fun x => !(x == k)) := by
  induction R with
  | nil => simp [keysOf]
  | cons kv rest ih =>
    obtain ⟨k0, v⟩ := kv
    simp only [keysOf, List.map_cons, List.filter_cons] at ih ⊢
    by_cases hk : k0 = k
    · subst hk
      rw [if_neg (by simp), if_neg (by simp)]
      exact ih
    · rw [if_pos (by simp [hk]), if_pos (by simp [hk]), List.map_cons, ih]

theorem lookupStr_filter_ne {R : List (String × Value)} {k k' : String}
    (h : k' ≠ k) :
    lookupStr k' (R.filter (fun kv => !(kv.1 == k))) = lookupStr k' R := by
  induction R with
  | nil => simp
  | cons kv rest ih =>
    obtain ⟨k0, v⟩ := kv
    rw [List.filter_cons]
    by_cases hk0 : k0 = k
    · subst hk0
      rw [if_neg (by simp), ih, lookupStr, if_neg h]
    · rw [if_pos (by simp [hk0])]
      by_cases hkk : k' = k0
      · rw [lookupStr, lookupStr, if_pos hkk, if_pos hkk]
      · rw [lookupStr, lookupStr, if_neg hkk, if_neg hkk, ih]

theorem contains_filter_ne {acc : List String} {k0 k : String}
    (h : k0 ≠ k) :
    (acc.filter (fun x => !(x == k))).contains k0 = acc.contains k0 := by
  by_cases hm : k0 ∈ acc
  · rw [contains_true_iff.mpr hm, contains_true_iff.mpr ?_]
    rw [List.mem_filter]
    exact ⟨hm, by simp [h]⟩
  · rw [contains_false_of_not_mem hm, contains_false_of_not_mem ?_]
    intro hmm
    exact hm (List.mem_filter.mp hmm).1

theorem extendKeys_filter_inv {k : String} :
    ∀ (ks acc1 acc2 : List String),
      acc2.filter (fun x => !(x == k)) = acc1 →
      extendKeys acc1 (ks.filter (fun x => !(x == k)))
        = (extendKeys acc2 ks).filter (fun x => !(x == k)) := by
  intro ks
  induction ks with
  | nil =>
    intro acc1 acc2 hinv
    simp only [List.filter_nil, extendKeys_nil]
    exact hinv.symm
  | cons x rest ih =>
    intro acc1 acc2 hinv
    rw [List.filter_cons, extendKeys_cons]
    by_cases hx : x = k
    · subst hx
      rw [if_neg (by simp)]
      refine ih acc1 _ ?_
      by_cases hc : acc2.contains x
      · rw [if_pos hc]
        exact hinv
      · rw [if_neg hc, List.filter_append]
        simp [hinv]
    · have hcont : acc2.contains x = acc1.contains x := by
        by_cases hm : x ∈ acc2
        · rw [contains_true_iff.mpr hm, contains_true_iff.mpr ?_]
          rw [← hinv]
          exact List.mem_filter.mpr ⟨hm, by simp [hx]⟩
        · rw [contains_false_of_not_mem hm, contains_false_of_not_mem ?_]
          rw [← hinv]
          intro hmm
          exact hm (List.mem_filter.mp hmm).1
      rw [if_pos (by simp [hx]), extendKeys_cons, hcont]
      by_cases hc : acc1.contains x
      · rw [if_pos hc, if_pos hc]
        exact ih acc1 acc2 hinv
      · rw [if_neg hc, if_neg hc]
        refine ih (acc1 ++ [x]) (acc2 ++ [x]) ?_
        rw [List.filter_append, hinv]
        simp [hx]

theorem flatMap_filter_ne {X : Type} {k : String} {keys : List String}
    {f g : String → List X}
    (hp : ∀ x ∈ keys, x ≠ k → g x = f x) (hk : f k = []) (hg : g k = []) :
    (keys.filter (fun x => !(x == k))).flatMap g = keys.flatMap f := by
  induction keys with
  | nil => simp
  | cons k0 rest ih =>
    rw [List.filter_cons, List.flatMap_cons]
    by_cases hk0 : k0 = k
    · subst hk0
      rw [if_neg (by simp), hk, List.nil_append]
      exact ih (fun x hx => hp x (by simp [hx]))
    · rw [if_pos (by simp [hk0]), List.flatMap_cons, hp k0 (by simp) hk0,
        ih (fun x hx => hp x (by simp [hx]))]

theorem confFor_filter_ne {b : Value} {L R : List (String × Value)}
    {p k k' : String} (hk' : k' ≠ k) :
    confFor b L (R.filter (fun kv => !(kv.1 == k))) p k'
      = confFor b L R p k' := by
  rw [confFor, confFor, lookupStr_filter_ne hk']

theorem entryFor_filter_ne {b : Value} {L R : List (String × Value)}
    {p k k' : String} (hk' : k' ≠ k) :
    entryFor b L (R.filter (fun kv => !(kv.1 == k))) p k'
      = entryFor b L R p k' := by
  rw [entryFor, entryFor, lookupStr_filter_ne hk']

theorem lookupStr_filter_self_none (R : List (String × Value)) (k : String) :
    lookupStr k (R.filter (fun kv => !(kv.1 == k))) = none := by
  refine lookupStr_eq_none (fun kv hm => ?_)
  have := (List.mem_filter.mp hm).2
  simp at this
  exact this

/-- Claim C5 (amended): in a mapping merge of the preserving merger, a
key present only in the remote mapping is always included with its
remote value, and no conflict is emitted for it even when the key was
present in the base mapping: removing the key from the remote mapping
leaves the conflict list unchanged. -/
theorem C5_remote_only_key_silent (b : Value) (L R : List (String × Value))
    (p k : String) (v : Value)
    (hkL : (keysOf L).contains k = false)
    (hkR : lookupStr k R = some v) :
    lookupStr k (mergeDicts b L R p).1 = some v ∧
    (mergeDicts b L R p).2 =
      (mergeDicts b L (R.filter (fun kv => !(kv.1 == k))) p).2 := by
  have hLnotmem : k ∉ keysOf L := fun hm => by
    rw [contains_true_iff.mpr hm] at hkL
    simp at hkL
  have hLnone : lookupStr k L = none := by
    cases hl : lookupStr k L with
    | none => rfl
    | some w =>
      exact absurd (mem_keys_iff_lookup.mpr (by simp [hl])) hLnotmem
  constructor
  · rw [mergeDicts_eq]
    refine lookupStr_flatMap (fun k' kv hm => entryFor_key hm) ?_ ?_
    · exact extendKeys_mem.mpr
        (Or.inr (mem_keys_iff_lookup.mpr (by simp [hkR])))
    · rw [entryFor, hLnone, hkR]
      simp [lookupStr]
  · rw [mergeDicts_eq, mergeDicts_eq]
    have hkeys :
        extendKeys (keysOf L) (keysOf (R.filter (fun kv => !(kv.1 == k))))
          = (extendKeys (keysOf L) (keysOf R)).filter (fun x => !(x == k)) := by
      rw [keysOf_filter_ne]
      refine extendKeys_filter_inv (keysOf R) (keysOf L) (keysOf L) ?_
      refine List.filter_eq_self.mpr (fun a ha => ?_)
      simp
      intro he
      subst he
      exact hLnotmem ha
    rw [hkeys]
    refine (flatMap_filter_ne ?_ ?_ ?_).symm
    · exact fun x hx hne => confFor_filter_ne hne
    · rw [confFor, hLnone, hkR]
    · rw [confFor, hLnone, lookupStr_filter_self_none]

/-! ### Claim theorems -/

/-- Claim C1: at a scalar or type-mismatched node (neither both
mappings nor both sequences), the structured merger returns `l` when
`l == r`; returns `r` when `b == l` and `b != r`; returns `l` when
`b == r` and `b != l`; and otherwise returns `l` as the tentative
value and records exactly one conflict at the node's path with
`auto_resolvable = false`. -/
theorem C1_scalar_rules (b l r : Value) (p : String)
    (h1 : (isMapV l && isMapV r) = false)
    (h2 : (isSeqV l && isSeqV r) = false) :
    (pyEq l r = true → deepMerge b l r p = (l, [])) ∧
    (pyEq b l = true → pyEq b r = false → deepMerge b l r p = (r, [])) ∧
    (pyEq b r = true → pyEq b l = false → deepMerge b l r p = (l, [])) ∧
    (pyEq l r = false → pyEq b l = false → pyEq b r = false →
      deepMerge b l r p = (l, [mkConflict p b l r]) ∧
      (mkConflict p b l r).auto_resolvable = false ∧
      (mkConflict p b l r).path = p) := by
  rw [deepMerge_scalar h1 h2]
  refine ⟨?_, ?_, ?_, ?_⟩
  · intro h
    rw [h]
    simp
  · intro hbl hbr
    have hlr : pyEq l r = false := by
      cases hc : pyEq l r
      · rfl
      · have := pyEq_trans hbl hc
        rw [this] at hbr
        simp at hbr
    rw [hlr, hbl]
    simp
  · intro hbr hbl
    have hlr : pyEq l r = false := by
      cases hc : pyEq l r
      · rfl
      · have hrl : pyEq r l = true := (pyEq_symm r l).trans hc
        have := pyEq_trans hbr hrl
        rw [this] at hbl
        simp at hbl
    rw [hlr, hbl, hbr]
    simp
  · intro hlr hbl hbr
    rw [hlr, hbl, hbr]
    refine ⟨by simp, ?_, ?_⟩ <;> simp [mkConflict, hbl, hbr]

/-- Witness for C1 at the spec's S3 example: base 3, local 5,
remote 10 at path `retries` (scalar node), and the same example run
through the full mapping merge. -/
theorem C1_scalar_rules_witness :
    deepMerge (.int 3) (.int 5) (.int 10) "retries"
        = (.int 5, [⟨"retries", .int 3, .int 5, .int 10, none, false⟩]) ∧
    merge (.map [("retries", .int 3)]) (.map [("retries", .int 5)])
        (.map [("retries", .int 10)])
      = (.map [("retries", .int 5)],
         [⟨"retries", .int 3, .int 5, .int 10, none, false⟩]) := by
  constructor
  · have h := (C1_scalar_rules (.int 3) (.int 5) (.int 10) "retries"
      (by simp [isMapV]) (by simp [isSeqV])).2.2.2 (by simp [pyEq])
      (by simp [pyEq]) (by simp [pyEq])
    rw [h.1]
    simp [mkConflict, pyEq]
  · rw [merge]
    simp [deepMerge, mergeDicts, extendKeys, keysOf, lookupStr, pyEq,
      pyMapLe, pyFind, baseGet, isTruthy, keyPath, mkConflict, baseHasKey]

/-- Claim C9 is falsified by the degenerate construction where base,
local and remote are all equal: the source sets `keep_local` and
`auto_resolvable = True` (the `base == remote` check fires first),
while the claim's `otherwise` clause requires `auto_resolvable =
false` since neither of its two guarded cases applies
(`local != remote` fails). -/
theorem C9_counterexample_all_equal :
    (mkConflict "p" (.int 1) (.int 1) (.int 1)).auto_resolvable = true ∧
    (mkConflict "p" (.int 1) (.int 1) (.int 1)).resolution
      = some "keep_local" := by
  constructor <;> simp [mkConflict, pyEq]

/-- Claim C9 (amended): at construction, if `base == remote` the
resolution is `keep_local` and the conflict is auto-resolvable (even
when all three values are equal); otherwise if `base == local` the
resolution is `take_remote` and it is auto-resolvable; otherwise the
resolution is null and it is not auto-resolvable.  Every
auto-resolvable conflict has a non-null resolution at construction. -/
theorem C9_auto_resolution_rules (p : String) (b l r : Value) :
    (pyEq b r = true →
      (mkConflict p b l r).resolution = some "keep_local" ∧
      (mkConflict p b l r).auto_resolvable = true) ∧
    (pyEq b r = false → pyEq b l = true →
      (mkConflict p b l r).resolution = some "take_remote" ∧
      (mkConflict p b l r).auto_resolvable = true) ∧
    (pyEq b r = false → pyEq b l = false →
      (mkConflict p b l r).resolution = none ∧
      (mkConflict p b l r).auto_resolvable = false) ∧
    ((mkConflict p b l r).auto_resolvable = true →
      (mkConflict p b l r).resolution.isSome = true) := by
  by_cases hbr : pyEq b r = true
  · refine ⟨fun _ => ?_, fun hbr2 _ => ?_, fun hbr2 _ => ?_, fun _ => ?_⟩ <;>
      simp [mkConflict, hbr] at * <;> simp_all
  · have hbr' : pyEq b r = false := by
      cases hc : pyEq b r
      · rfl
      · exact absurd hc hbr
    by_cases hbl : pyEq b l = true
    · refine ⟨fun h => ?_, fun _ _ => ?_, fun _ h => ?_, fun _ => ?_⟩ <;>
        simp [mkConflict, hbr', hbl] at * <;> simp_all
    · have hbl' : pyEq b l = false := by
        cases hc : pyEq b l
        · rfl
        · exact absurd hc hbl
      refine ⟨fun h => ?_, fun _ h => ?_, fun _ _ => ?_, fun h => ?_⟩ <;>
        simp [mkConflict, hbr', hbl'] at * <;> simp_all

/-- Witness for the amended C9 at a remote-only change: base 1,
local 1, remote 2 gives `take_remote`, auto-resolvable. -/
theorem C9_auto_resolution_rules_witness :
    (mkConflict "x" (.int 1) (.int 1) (.int 2)).resolution
        = some "take_remote" ∧
    (mkConflict "x" (.int 1) (.int 1) (.int 2)).auto_resolvable = true :=
  (C9_auto_resolution_rules "x" (.int 1) (.int 1) (.int 2)).2.1
    (by simp [pyEq]) (by simp [pyEq])

/-- Claim C3: once the backup copy exists, any error raised by the
body of the apply stage leads to the element directory being restored
to its pre-upgrade contents (the partial directory is deleted and the
backup moved back) and the originating error re-raised; on success the
backup is deleted. -/
theorem C3_backup_rollback (α : Type) (body : α → Except String α)
    (fs : FSState α) (e : α) (he : fs.element = some e) :
    (∀ msg, body e = .error msg →
      applyMergedFiles body fs = (.error msg, ⟨some e, none⟩)) ∧
    (∀ e2, body e = .ok e2 →
      applyMergedFiles body fs = (.ok (), ⟨some e2, none⟩)) := by
  obtain ⟨el, bk⟩ := fs
  simp only [FSState.mk.injEq] at he ⊢
  subst he
  constructor <;> intro x hx <;> simp [applyMergedFiles, hx]

/-- Witness for C3: a body failing with "disk full" leaves the element
restored and re-raises; a succeeding body commits and drops the
backup. -/
theorem C3_backup_rollback_witness :
    applyMergedFiles (fun _ : Nat => Except.error "disk full")
        ⟨some 0, none⟩
      = (Except.error "disk full", ⟨some 0, none⟩) ∧
    applyMergedFiles (fun n : Nat => Except.ok (n + 1)) ⟨some 0, none⟩
      = (Except.ok (), ⟨some 1, none⟩) :=
  ⟨(C3_backup_rollback Nat (fun _ => Except.error "disk full")
      ⟨some 0, none⟩ 0 rfl).1 "disk full" rfl,
   (C3_backup_rollback Nat (fun n => Except.ok (n + 1))
      ⟨some 0, none⟩ 0 rfl).2 1 rfl⟩

/-- Claim C8 is falsified: with a leftover backup present when the
upgrade starts (prior interrupted upgrade), the apply stage does not
refuse to proceed; it deletes the leftover backup (upgrade.py lines
120-121) and runs to completion, here successfully replacing the
element and leaving no backup behind. -/
theorem C8_counterexample_leftover_backup :
    applyMergedFiles (fun n : Nat => Except.ok (n + 1)) ⟨some 0, some 7⟩
      = (Except.ok (), ⟨some 1, none⟩) := rfl

/-- Claim C8 (amended): a pre-existing backup path is removed first
and the upgrade proceeds exactly as if no leftover backup existed. -/
theorem C8_leftover_backup_removed (α : Type) (body : α → Except String α)
    (el : Option α) (bkp : α) :
    applyMergedFiles body ⟨el, some bkp⟩
      = applyMergedFiles body ⟨el, none⟩ := by
  cases el <;> rfl

/-- Claim C2 is a code bug: a values merge that leaves an unresolved
conflict (here the spec's S3 example) reaches the conflict-header
block of `apply_merged_files`, whose header f-string reads the unbound
names `baseline` and `target_version`; the emission raises `NameError`
instead of completing. -/
theorem C2_conflict_header_raises :
    conflictHeaderStep
        (merge (.map [("retries", .int 3)]) (.map [("retries", .int 5)])
          (.map [("retries", .int 10)])).2
      = Except.error "NameError: name baseline is not defined" := by
  rw [merge]
  simp [deepMerge, mergeDicts, extendKeys, keysOf, lookupStr, pyEq,
    pyMapLe, pyFind, baseGet, isTruthy, keyPath, mkConflict, baseHasKey,
    conflictHeaderStep]

/-- Claim C7 is a code bug: local `"x"` and remote `"y"` both tokenise
to one block, so the per-index scalar rules should compare them (and,
both having changed with no base block, emit a `block_0` conflict with
a marker).  Because `merge_template` zips the three block lists
together and the empty base contributes no blocks, the single
local/remote block pair is silently dropped: the merged output is
empty and no conflict is reported. -/
theorem C7_zip_truncates_blocks :
    mergeTemplate "" "x" "y" = ("", []) ∧
    (extractBlocks "x").length = 1 ∧
    (extractBlocks "y").length = 1 := by
  refine ⟨?_, ?_, ?_⟩ <;>
    simp [mergeTemplate, extractBlocks, scanBlocks, takeDirective,
      staticPart, isPySpace, lbraceChar, rbraceChar, String.toList,
      String.join]

theorem isTruthy_false_of_dropped {it : Value} (hm : isMapV it = true)
    (hd : droppedNamedItem it = true) : isTruthy (pyGetName it) = false := by
  rw [droppedNamedItem, hm] at hd
  simp only [Bool.not_true, Bool.false_or] at hd
  cases hn : pyGetName it <;> simp_all [isTruthy]

theorem namedLoop_filter (bBy rBy : List (Value × Value)) (p : String) :
    ∀ ll : List Value,
      namedLoop bBy rBy p (ll.filter (fun it => !droppedNamedItem it))
        = namedLoop bBy rBy p ll := by
  intro ll
  induction ll with
  | nil => simp
  | cons it rest ih =>
    rw [List.filter_cons]
    by_cases hd : droppedNamedItem it = true
    · rw [if_neg (by simp [hd]), ih]
      by_cases hm : isMapV it = true
      · have ht := isTruthy_false_of_dropped hm hd
        conv_rhs => rw [namedLoop]
        simp [hm, ht]
      · have hm' : isMapV it = false := by
          cases hc : isMapV it
          · rfl
          · exact absurd hc hm
        conv_rhs => rw [namedLoop]
        simp [hm']
    · have hd' : droppedNamedItem it = false := by
        cases hc : droppedNamedItem it
        · rfl
        · exact absurd hc hd
      rw [if_pos (by simp [hd'])]
      conv_lhs => rw [namedLoop]
      conv_rhs => rw [namedLoop]
      rw [ih]

/-- Claim C10: in a sequence merge routed to the named-list algorithm,
every local item that is not a mapping, or whose name is null (also a
missing `name` key) or the empty string, is silently skipped: the
merge result (merged sequence and conflicts alike) is the same as if
those items had been removed from the local sequence beforehand. -/
theorem C10_named_merge_drops_unnamed_local_items (b : Value)
    (ll rl : List Value) (p : String)
    (h : (isNamedList ll || isNamedList rl) = true) :
    mergeLists b ll rl p
      = mergeNamedLists b (ll.filter (fun it => !droppedNamedItem it))
          rl p := by
  rw [mergeLists, if_pos h, mergeNamedLists, mergeNamedLists,
    namedLoop_filter]

/-- Witness for C10: the remote list is a named list, the local list
holds a non-mapping item `5` that is silently dropped. -/
theorem C10_named_merge_witness :
    mergeLists (.seq []) [.int 5, .map [("name", .str "a"), ("lvl", .int 1)]]
        [.map [("name", .str "a"), ("lvl", .int 1)]] ""
      = mergeNamedLists (.seq [])
          ([.int 5, .map [("name", .str "a"), ("lvl", .int 1)]].filter
            (fun it => !droppedNamedItem it))
          [.map [("name", .str "a"), ("lvl", .int 1)]] "" :=
  C10_named_merge_drops_unnamed_local_items (.seq [])
    [.int 5, .map [("name", .str "a"), ("lvl", .int 1)]]
    [.map [("name", .str "a"), ("lvl", .int 1)]] ""
    (by simp [isNamedList, isMapV, keysOf])

/-! ### The no-op-local property (claim C4) -/

theorem baseGet_map_of_lookup {bm : List (String × Value)} {k : String}
    {lv : Value} (hl : lookupStr k bm = some lv) :
    baseGet (.map bm) k = lv := by
  cases bm with
  | nil => simp [lookupStr] at hl
  | cons kv rest => simp [baseGet, isTruthy, hl]

theorem normBase_map (bm : List (String × Value)) :
    (if isTruthy (Value.map bm) then Value.map bm else Value.map [])
      = Value.map bm := by
  cases bm <;> simp [isTruthy]

theorem normBase_seq (bl : List Value) :
    (if isTruthy (Value.seq bl) then Value.seq bl else Value.seq [])
      = Value.seq bl := by
  cases bl <;> simp [isTruthy]

theorem noop_merge_aux :
    ∀ (n : Nat) (B R : Value) (p : String), sizeOf B ≤ n →
      wfValue B = true → wfValue R = true → noopOk B R = true →
      (deepMerge B B R p).2 = [] ∧
      pyEq (deepMerge B B R p).1 R = true := by
  intro n
  induction n with
  | zero =>
    intro B R p hsz
    exfalso
    cases B <;> simp at hsz
  | succ n ih =>
    intro B R p hsz hwfB hwfR hno
    by_cases hpe : pyEq B R = true
    · rw [deepMerge_of_pyEq hpe]
      exact ⟨rfl, hpe⟩
    · have hpe' : pyEq B R = false := by
        cases hc : pyEq B R
        · rfl
        · exact absurd hc hpe
      match B, R, hpe', hno, hsz, hwfB, hwfR with
      | .map bm, .map rm, hpe', hno, hsz, hwfB, hwfR =>
        have hno' : noopEntries bm rm = true := by
          rw [noopOk, hpe', Bool.false_or] at hno
          exact hno
        rw [deepMerge_map_map hpe', normBase_map, mergeDicts_eq]
        have hBsub := noopEntries_forall hno'
        rw [wfValue] at hwfB hwfR
        simp only [Bool.and_eq_true] at hwfB hwfR
        have hIH : ∀ {k : String} {lv w : Value},
            lookupStr k bm = some lv → lookupStr k rm = some w →
            noopOk lv w = true →
            (deepMerge lv lv w (keyPath p k)).2 = [] ∧
            pyEq (deepMerge lv lv w (keyPath p k)).1 w = true := by
          intro k lv w hl hw hn
          refine ih lv w (keyPath p k) ?_
            (wfEntries_mem hwfB.2 (lookupStr_mem hl))
            (wfEntries_mem hwfR.2 (lookupStr_mem hw)) hn
          have h1 := lookupStr_sizeOf hl
          simp only [Value.map.sizeOf_spec] at hsz
          omega
        constructor
        · refine flatMap_eq_nil_of (fun k hk => ?_)
          cases hl : lookupStr k bm with
          | some lv =>
            obtain ⟨w, hw0, hn0⟩ := hBsub (k, lv) (lookupStr_mem hl)
            have hw : lookupStr k rm = some w := hw0
            have hn2 : noopOk lv w = true := hn0
            rw [confFor, hl, hw, baseGet_map_of_lookup hl]
            exact (hIH hl hw hn2).1
          | none =>
            cases hr : lookupStr k rm <;> simp [confFor, hl, hr]
        · rw [pyEq]
          simp only [Bool.and_eq_true]
          constructor
          · rw [pyMapLe_iff]
            intro kv hm
            obtain ⟨k, hkmem, hkv⟩ := List.mem_flatMap.mp hm
            have hkey := entryFor_key hkv
            rw [pyFind_eq_lookup, hkey]
            cases hl : lookupStr k bm with
            | some lv =>
              obtain ⟨w, hw0, hn0⟩ := hBsub (k, lv) (lookupStr_mem hl)
              have hw : lookupStr k rm = some w := hw0
              have hn2 : noopOk lv w = true := hn0
              rw [entryFor, hl, hw, baseGet_map_of_lookup hl] at hkv
              simp only [List.mem_singleton] at hkv
              have h2 : kv.2 = (deepMerge lv lv w (keyPath p k)).1 := by
                rw [hkv]
              simp only [hw]
              rw [h2]
              exact (hIH hl hw hn2).2
            | none =>
              cases hr : lookupStr k rm with
              | some rv =>
                rw [entryFor, hl, hr] at hkv
                simp only [List.mem_singleton] at hkv
                have h2 : kv.2 = rv := by rw [hkv]
                simp only [hr]
                rw [h2]
                exact pyEq_refl
                  (wfEntries_mem hwfR.2 (lookupStr_mem hr))
              | none =>
                rw [entryFor, hl, hr] at hkv
                simp at hkv
          · rw [pyMapLe_iff]
            intro kv hm
            obtain ⟨k, rv⟩ := kv
            have hrv : lookupStr k rm = some rv :=
              lookupStr_eq_of_mem_nodup hm (nodupKeys_iff.mp hwfR.1)
            have hkmem : k ∈ extendKeys (keysOf bm) (keysOf rm) :=
              extendKeys_mem.mpr
                (Or.inr (List.mem_map.mpr ⟨(k, rv), hm, rfl⟩))
            rw [pyFind_eq_lookup]
            cases hl : lookupStr k bm with
            | some lv =>
              obtain ⟨w, hw0, hn0⟩ := hBsub (k, lv) (lookupStr_mem hl)
              have hw : lookupStr k rm = some w := hw0
              have hn2 : noopOk lv w = true := hn0
              have hwrv : w = rv := by
                rw [hrv] at hw
                exact (Option.some.inj hw).symm
              subst hwrv
              have hlk : lookupStr k
                  ((extendKeys (keysOf bm) (keysOf rm)).flatMap
                    (entryFor (.map bm) bm rm p))
                  = some (deepMerge lv lv w (keyPath p k)).1 := by
                refine lookupStr_flatMap
                  (fun k' kv hmm => entryFor_key hmm) hkmem ?_
                rw [entryFor, hl, hw, baseGet_map_of_lookup hl]
                simp [lookupStr]
              simp only [hlk]
              rw [pyEq_symm]
              exact (hIH hl hw hn2).2
            | none =>
              have hlk : lookupStr k
                  ((extendKeys (keysOf bm) (keysOf rm)).flatMap
                    (entryFor (.map bm) bm rm p)) = some rv := by
                refine lookupStr_flatMap
                  (fun k' kv hmm => entryFor_key hmm) hkmem ?_
                rw [entryFor, hl, hrv]
                simp [lookupStr]
              simp only [hlk]
              exact pyEq_refl (wfEntries_mem hwfR.2 hm)
      | .seq bl, .seq rl, hpe', hno, hsz, hwfB, hwfR =>
        have hno' : (!isNamedList bl && !isNamedList rl) = true := by
          rw [noopOk, hpe', Bool.false_or] at hno
          exact hno
        simp only [Bool.and_eq_true, Bool.not_eq_true'] at hno'
        rw [deepMerge_seq_seq hpe', normBase_seq, mergeLists,
          if_neg (by simp [hno'.1, hno'.2])]
        have hrefl : pyEq (.seq bl) (.seq bl) = true := pyEq_refl hwfB
        rw [if_neg (by simp [hrefl]), if_neg (by simp [hrefl])]
        exact ⟨rfl, pyEq_refl hwfR⟩
      | .null, r, hpe', hno, hsz, hwfB, hwfR =>
        rw [deepMerge_scalar (by simp [isMapV]) (by cases r <;> simp [isSeqV]),
          hpe', pyEq_refl hwfB]
        exact ⟨rfl, pyEq_refl hwfR⟩
      | .bool x, r, hpe', hno, hsz, hwfB, hwfR =>
        rw [deepMerge_scalar (by simp [isMapV]) (by cases r <;> simp [isSeqV]),
          hpe', pyEq_refl hwfB]
        exact ⟨rfl, pyEq_refl hwfR⟩
      | .int m, r, hpe', hno, hsz, hwfB, hwfR =>
        rw [deepMerge_scalar (by simp [isMapV]) (by cases r <;> simp [isSeqV]),
          hpe', pyEq_refl hwfB]
        exact ⟨rfl, pyEq_refl hwfR⟩
      | .str s, r, hpe', hno, hsz, hwfB, hwfR =>
        rw [deepMerge_scalar (by simp [isMapV]) (by cases r <;> simp [isSeqV]),
          hpe', pyEq_refl hwfB]
        exact ⟨rfl, pyEq_refl hwfR⟩
      | .seq bl, .null, hpe', hno, hsz, hwfB, hwfR =>
        rw [deepMerge_scalar (by simp [isMapV]) (by simp [isSeqV]),
          hpe', pyEq_refl hwfB]
        exact ⟨rfl, pyEq_refl hwfR⟩
      | .seq bl, .bool y, hpe', hno, hsz, hwfB, hwfR =>
        rw [deepMerge_scalar (by simp [isMapV]) (by simp [isSeqV]),
          hpe', pyEq_refl hwfB]
        exact ⟨rfl, pyEq_refl hwfR⟩
      | .seq bl, .int mm, hpe', hno, hsz, hwfB, hwfR =>
        rw [deepMerge_scalar (by simp [isMapV]) (by simp [isSeqV]),
          hpe', pyEq_refl hwfB]
        exact ⟨rfl, pyEq_refl hwfR⟩
      | .seq bl, .str t, hpe', hno, hsz, hwfB, hwfR =>
        rw [deepMerge_scalar (by simp [isMapV]) (by simp [isSeqV]),
          hpe', pyEq_refl hwfB]
        exact ⟨rfl, pyEq_refl hwfR⟩
      | .seq bl, .map rm, hpe', hno, hsz, hwfB, hwfR =>
        rw [deepMerge_scalar (by simp [isMapV]) (by simp [isSeqV]),
          hpe', pyEq_refl hwfB]
        exact ⟨rfl, pyEq_refl hwfR⟩
      | .map bm, .null, hpe', hno, hsz, hwfB, hwfR =>
        rw [deepMerge_scalar (by simp [isMapV]) (by simp [isSeqV]),
          hpe', pyEq_refl hwfB]
        exact ⟨rfl, pyEq_refl hwfR⟩
      | .map bm, .bool y, hpe', hno, hsz, hwfB, hwfR =>
        rw [deepMerge_scalar (by simp [isMapV]) (by simp [isSeqV]),
          hpe', pyEq_refl hwfB]
        exact ⟨rfl, pyEq_refl hwfR⟩
      | .map bm, .int mm, hpe', hno, hsz, hwfB, hwfR =>
        rw [deepMerge_scalar (by simp [isMapV]) (by simp [isSeqV]),
          hpe', pyEq_refl hwfB]
        exact ⟨rfl, pyEq_refl hwfR⟩
      | .map bm, .str t, hpe', hno, hsz, hwfB, hwfR =>
        rw [deepMerge_scalar (by simp [isMapV]) (by simp [isSeqV]),
          hpe', pyEq_refl hwfB]
        exact ⟨rfl, pyEq_refl hwfR⟩
      | .map bm, .seq rl, hpe', hno, hsz, hwfB, hwfR =>
        rw [deepMerge_scalar (by simp [isMapV]) (by simp [isSeqV]),
          hpe', pyEq_refl hwfB]
        exact ⟨rfl, pyEq_refl hwfR⟩

/-- Claim C4 is falsified at B = {flag: true}, L = B, R = {} (remote
deletes the key): the merge keeps the key with one conflict, whereas
the claim requires a tree equal to R = {} with zero conflicts (second
conjunct: the merged tree is not Python-equal to R). -/
theorem C4_counterexample_remote_deletion :
    merge (.map [("flag", .bool true)]) (.map [("flag", .bool true)])
        (.map [])
      = (.map [("flag", .bool true)],
         [⟨"flag", .bool true, .bool true, .null,
            some "take_remote", true⟩]) ∧
    pyEq (.map [("flag", .bool true)]) (.map []) = false := by
  constructor
  · rw [merge]
    simp [deepMerge, mergeDicts, extendKeys, keysOf, lookupStr, pyEq,
      pyMapLe, pyFind, baseGet, isTruthy, keyPath, mkConflict, baseHasKey]
  · simp [pyEq, pyMapLe, pyFind]

/-- Claim C4 (amended): `merge(B, B, R)` returns a tree Python-equal
to `R` with zero conflicts for all well-formed trees satisfying the
no-op side condition `noopOk` (every base mapping key is still present
in the remote mapping at the corresponding path, and no sequence on
the way is detected as a named list).  When `R` instead deletes a
mapping key present in `B`, the merged tree retains that key with its
base value and reports an auto-resolvable `take_remote` deletion
conflict, as the second conjunct illustrates. -/
theorem C4_noop_local_merge :
    (∀ (B R : Value) (p : String), wfValue B = true → wfValue R = true →
      noopOk B R = true →
      (deepMerge B B R p).2 = [] ∧
      pyEq (deepMerge B B R p).1 R = true) ∧
    merge (.map [("a", .int 1), ("b", .int 2)])
        (.map [("a", .int 1), ("b", .int 2)]) (.map [("a", .int 1)])
      = (.map [("a", .int 1), ("b", .int 2)],
         [⟨"b", .int 2, .int 2, .null, some "take_remote", true⟩]) := by
  constructor
  · exact fun B R p hB hR hno =>
      noop_merge_aux (sizeOf B) B R p (Nat.le_refl _) hB hR hno
  · rw [merge]
    simp [deepMerge, mergeDicts, extendKeys, keysOf, lookupStr, pyEq,
      pyMapLe, pyFind, baseGet, isTruthy, keyPath, mkConflict, baseHasKey]

/-- Witness for the amended C4: base {a: 1}, remote {a: 2, b: 3}
(remote-only edit and addition, no deletions, no named lists). -/
theorem C4_noop_local_merge_witness :
    (deepMerge (.map [("a", .int 1)]) (.map [("a", .int 1)])
        (.map [("a", .int 2), ("b", .int 3)]) "").2 = [] ∧
    pyEq (deepMerge (.map [("a", .int 1)]) (.map [("a", .int 1)])
        (.map [("a", .int 2), ("b", .int 3)]) "").1
      (.map [("a", .int 2), ("b", .int 3)]) = true :=
  C4_noop_local_merge.1 (.map [("a", .int 1)])
    (.map [("a", .int 2), ("b", .int 3)]) ""
    (by simp [wfValue, wfEntries, nodupKeys, keysOf])
    (by simp [wfValue, wfEntries, nodupKeys, keysOf])
    (by simp [noopOk, noopEntries, lookupStr, pyEq])

/-- Claim C5 is falsified at base {a: 1}, local {}, remote {a: 2}: key
`a` is remote-only and was present in base, so the claim requires a
deletion conflict (a, 1, absent, 2); the preserving merger includes
the key silently with zero conflicts. -/
theorem C5_counterexample_no_deletion_conflict :
    merge (.map [("a", .int 1)]) (.map []) (.map [("a", .int 2)])
      = (.map [("a", .int 2)], []) := by
  rw [merge]
  simp [deepMerge, mergeDicts, extendKeys, keysOf, lookupStr, pyEq,
    pyMapLe, pyFind, baseGet, isTruthy, keyPath, mkConflict, baseHasKey]

/-- Witness for the amended C5 at base {a: 1}, local {}, remote
{a: 2}, key `a`. -/
theorem C5_remote_only_key_silent_witness :
    lookupStr "a"
        (mergeDicts (.map [("a", .int 1)]) [] [("a", .int 2)] "").1
      = some (.int 2) ∧
    (mergeDicts (.map [("a", .int 1)]) [] [("a", .int 2)] "").2
      = (mergeDicts (.map [("a", .int 1)]) []
          ([("a", .int 2)].filter (fun kv => !(kv.1 == "a"))) "").2 :=
  C5_remote_only_key_silent (.map [("a", .int 1)]) [] [("a", .int 2)]
    "" "a" (.int 2) (by simp [keysOf]) (by simp [lookupStr])

/-- Witness for C6 at base null, local {b: 1}, remote {a: 2}. -/
theorem C6_merged_mapping_key_order_witness :
    ∃ M cs,
      deepMerge Value.null (.map [("b", .int 1)]) (.map [("a", .int 2)]) ""
          = (.map M, cs) ∧
      keysOf M = keysOf [("b", Value.int 1)]
          ++ (keysOf [("a", Value.int 2)]).filter
            (fun k => !(keysOf [("b", Value.int 1)]).contains k) ∧
      (keysOf M).filter
          (fun k => (keysOf [("b", Value.int 1)]).contains k)
        = keysOf [("b", Value.int 1)] :=
  C6_merged_mapping_key_order Value.null [("b", .int 1)] [("a", .int 2)]
    "" (by simp [keysOf])

end PolicyStack
